import Mathlib

/-!
Verification development for the SETS translation pipeline
(src/SETSv0.2.1.py).  Strings are modelled as `List Char`; the Python
regular-expression operations used by the program are embedded as
executable scanning functions over character lists.
-/

set_option maxHeartbeats 1000000

namespace SETS

/-- Whitespace test matching Python's `\s` / `str.strip()` on the ASCII
whitespace characters (space, tab, newline, carriage return, vertical
tab, form feed). -/
def isSpace (c : Char) : Bool :=
  c.toNat = 32 || c.toNat = 9 || c.toNat = 10 || c.toNat = 13 ||
  c.toNat = 11 || c.toNat = 12

/-- Drop an exact literal from the front of `s`: `some r` iff `s = lit ++ r`. -/
def dropLit : List Char → List Char → Option (List Char)
  | [], s => some s
  | _ :: _, [] => none
  | l :: ls, c :: cs => if c = l then dropLit ls cs else none

/-- Number of leading whitespace characters of `s`. -/
def wsCount : List Char → Nat
  | [] => 0
  | c :: r => if isSpace c then wsCount r + 1 else 0

/-- Whether `s` begins with a whitespace character. -/
def startsWithWs : List Char → Bool
  | [] => false
  | c :: _ => isSpace c

/-- Greedy backtracking step for a `\s*` gap in a regular expression:
try the continuation `k` after dropping `j, j-1, ..., 0` characters. -/
def tryFrom (k : List Char → Option (List Char)) (s : List Char) :
    Nat → Option (List Char)
  | 0 => k s
  | j + 1 =>
    match k (s.drop (j + 1)) with
    | some r => some r
    | none => tryFrom k s j

/-- Greedy `\s*`: consume as many leading whitespace characters as
possible, backtracking if the continuation fails. -/
def wsStar (k : List Char → Option (List Char)) (s : List Char) :
    Option (List Char) :=
  tryFrom k s (wsCount s)

/-- The text `<tag>` (opening wrapper element). -/
def tagOpen (tag : List Char) : List Char := '<' :: (tag ++ ">".data)

/-- The text `</tag>` (closing wrapper element). -/
def tagClose (tag : List Char) : List Char := '<' :: '/' :: (tag ++ ">".data)

/-- The replacement text `<tag>tr</tag>` built by the f-strings at source
lines 198 and 204 (`f'<value>{translated}</value>'` and
`f'<{tag}>{translated}</{tag}>'`). -/
def tagRepl (tag tr : List Char) : List Char :=
  tagOpen tag ++ tr ++ tagClose tag

/-- Matcher, at the head of `s`, for the pattern
`<tag>\s*orig\s*</tag>` (source lines 197 and 203; `orig` is
`re.escape`d in the source, hence a literal).  Returns the remainder of
`s` after the match.  The two `\s*` gaps are greedy with backtracking,
exactly as in the regex engine. -/
def matchTag (tag orig s : List Char) : Option (List Char) :=
  match dropLit (tagOpen tag) s with
  | none => none
  | some s1 =>
    wsStar (fun s2 =>
      match dropLit orig s2 with
      | none => none
      | some s3 => wsStar (dropLit (tagClose tag)) s3) s1

/-- Generic global-substitution scan implementing Python's
`re.sub(pattern, repl, s)` (count = 0, i.e. replace ALL leftmost
non-overlapping matches): at each position try the matcher `m`; on a
match emit `repl` and continue after the matched span, otherwise copy
one character.  `fuel` bounds the recursion; every matcher used in this
file consumes at least one character, so `fuel = s.length` is always
sufficient. -/
def scanF (m : List Char → Option (List Char)) (repl : List Char) :
    Nat → List Char → List Char
  | 0, s => s
  | _ + 1, [] => []
  | f + 1, c :: rest =>
    match m (c :: rest) with
    | some rem => repl ++ scanF m repl f rem
    | none => c :: scanF m repl f rest

/-- Matcher for an escaped literal pattern (`re.escape(context)`,
source line 201).  The `pat = []` guard is unreachable in the program:
the literal is only built when `context` is non-empty. -/
def matchLit (pat s : List Char) : Option (List Char) :=
  if pat = [] then none else dropLit pat s

/-- `re.sub(r'<tag>\s*orig\s*</tag>', f'<tag>tr</tag>', s)` with
`orig` escaped — the scalar-branch substitution (source lines 203-204)
and, with tag `value`, the in-anchor substitution (source lines 197-200). -/
def subTag (tag orig tr s : List Char) : List Char :=
  scanF (matchTag tag orig) (tagRepl tag tr) s.length s

/-- `re.sub(re.escape(pat), repl, s)` — the whole-anchor substitution of
source line 209 for the Value branch. -/
def subLit (pat repl s : List Char) : List Char :=
  scanF (matchLit pat) repl s.length s

/-- One tuple `(tag, original, translated, context)` of the
`translations` list consumed by `replace_translated_content`
(source line 193). -/
structure TransItem where
  tag : List Char
  orig : List Char
  tr : List Char
  ctx : Option (List Char)
  deriving DecidableEq

/-- A compiled replacement: either an escaped-literal pattern with its
replacement text (Value branch), or a `<tag>\s*orig\s*</tag>` pattern
with replacement `<tag>tr</tag>` (scalar branch). -/
inductive Repl
  | lit (pat repl : List Char)
  | tagPat (tag orig tr : List Char)

/-- First loop of `replace_translated_content` (source lines 192-204):
for a Value item carrying a (truthy, i.e. non-empty) context, rewrite
the inner value inside the captured context and record an
escaped-literal replacement of the whole context; otherwise record the
scalar wrapping-element pattern. -/
def buildRepl (it : TransItem) : Repl :=
  match it.ctx with
  | some ctx =>
    if it.tag = "value".data ∧ ctx ≠ [] then
      Repl.lit ctx (subTag "value".data it.orig it.tr ctx)
    else Repl.tagPat it.tag it.orig it.tr
  | none => Repl.tagPat it.tag it.orig it.tr

/-- Second loop of `replace_translated_content` (source lines 208-209):
apply one recorded replacement to the whole content with `re.sub`. -/
def applyRepl (content : List Char) : Repl → List Char
  | Repl.lit pat repl => subLit pat repl content
  | Repl.tagPat tag orig tr => subTag tag orig tr content

/-- The replacement engine of `replace_translated_content`
(source lines 187-209), restricted to its pure content→content core
(file I/O and output-path computation are outside the model): build one
replacement per translation tuple, then apply them to the content in
order. -/
def replace_translated_content (translations : List TransItem)
    (content : List Char) : List Char :=
  (translations.map buildRepl).foldl applyRepl content

/-!  ## Fragment extraction (`parse_translatable_content`, source lines 156-185) -/

/-- Case-insensitive character comparison (re.IGNORECASE on the ASCII
element names appearing in the extraction pattern). -/
def charCIEq (c d : Char) : Bool := c.toLower = d.toLower

/-- Case-insensitive equality of two texts (character-wise). -/
def ciEq : List Char → List Char → Bool
  | [], [] => true
  | c :: cs, d :: ds => charCIEq c d && ciEq cs ds
  | _, _ => false

/-- Drop a literal case-insensitively, returning the actually consumed
text together with the remainder: `some (w, r)` implies `s = w ++ r`
with `w` character-wise case-insensitively equal to `lit`. -/
def dropLitCI : List Char → List Char → Option (List Char × List Char)
  | [], s => some ([], s)
  | _ :: _, [] => none
  | l :: ls, c :: cs =>
    if charCIEq c l then
      match dropLitCI ls cs with
      | some (w, r) => some (c :: w, r)
      | none => none
    else none

/-- Python `str.strip()`: remove leading and trailing whitespace. -/
def stripChars (s : List Char) : List Char :=
  ((s.dropWhile isSpace).reverse.dropWhile isSpace).reverse

/-- First alternative of a regex alternation that matches
case-insensitively at the head of `s`.  The alternations this models
(`DisplayName|Description|Tooltip` and the Chinese tag names) are
pairwise distinguishable on their first two characters, so committing
to the first prefix match agrees with the backtracking engine. -/
def altCI (lits : List (List Char)) (s : List Char) :
    Option (List Char × List Char) :=
  match lits with
  | [] => none
  | l :: ls =>
    match dropLitCI l s with
    | some (w, r) => some (w, r)
    | none => altCI ls s

/-- Closing test for the lazy value group of the block shape: the
pattern tail `\s*</value>\s*</data>` (case-insensitive), returning the
consumed text and the remainder.  Each `\s*` is followed by the
non-whitespace character `<`, so greedy maximal munch agrees with the
backtracking engine. -/
def closeFull (r : List Char) : Option (List Char × List Char) :=
  match dropLitCI "</value>".data (r.dropWhile isSpace) with
  | none => none
  | some (c6, r2) =>
    match dropLitCI "</data>".data (r2.dropWhile isSpace) with
    | none => none
    | some (c7, rest) =>
      some (r.takeWhile isSpace ++ c6 ++ r2.takeWhile isSpace ++ c7, rest)

/-- Closing test for the lazy text group of the scalar shape: the
pattern tail `\s*</(?P=simple_tag)>`, where the backreference matches
the captured opening tag case-insensitively. -/
def closeSimple (tagTxt : List Char) (r : List Char) :
    Option (List Char × List Char) :=
  match dropLitCI ("</".data ++ tagTxt ++ ">".data) (r.dropWhile isSpace) with
  | none => none
  | some (c, rest) => some (r.takeWhile isSpace ++ c, rest)

/-- Lazy (`.*?`, with `re.DOTALL`) capture: the shortest prefix of `s`
after which the closing test `tc` succeeds.  Returns
(captured, closeConsumed, rest). -/
def lazyUntil (tc : List Char → Option (List Char × List Char)) :
    List Char → Option (List Char × List Char × List Char)
  | [] =>
    match tc [] with
    | some (cl, rest) => some ([], cl, rest)
    | none => none
  | c :: s' =>
    match tc (c :: s') with
    | some (cl, rest) => some ([], cl, rest)
    | none =>
      match lazyUntil tc s' with
      | some (cap, cl, rest) => some (c :: cap, cl, rest)
      | none => none

/-- Matcher for the block shape of the extraction pattern
(source lines 162-166):
`<data\s+name="[^"]+"[^>]*>\s*<value>\s*(?P<value>.*?)\s*</value>\s*</data>`
with `re.DOTALL | re.IGNORECASE`.  Returns
(full matched text, captured value group, remainder).  Greedy pieces
(`\s+`, `[^"]+`, `[^>]*`, `\s*`) are each followed by a literal their
class excludes, so maximal munch agrees with the backtracking engine. -/
def matchFull (s : List Char) : Option (List Char × List Char × List Char) :=
  match dropLitCI "<data".data s with
  | none => none
  | some (c1, s1) =>
    let w1 := s1.takeWhile isSpace
    let s2 := s1.dropWhile isSpace
    if w1 = [] then none
    else
      match dropLitCI "name=\"".data s2 with
      | none => none
      | some (c2, s3) =>
        let n := s3.takeWhile (fun c => c != '"')
        let s4 := s3.dropWhile (fun c => c != '"')
        if n = [] then none
        else
          match dropLit "\"".data s4 with
          | none => none
          | some s5 =>
            let a := s5.takeWhile (fun c => c != '>')
            let s6 := s5.dropWhile (fun c => c != '>')
            match dropLit ">".data s6 with
            | none => none
            | some s7 =>
              let w2 := s7.takeWhile isSpace
              let s8 := s7.dropWhile isSpace
              match dropLitCI "<value>".data s8 with
              | none => none
              | some (c5, s9) =>
                let w3 := s9.takeWhile isSpace
                let s10 := s9.dropWhile isSpace
                match lazyUntil closeFull s10 with
                | none => none
                | some (raw, cl, rest) =>
                  some (c1 ++ w1 ++ c2 ++ n ++ "\"".data ++ a ++ ">".data ++
                        w2 ++ c5 ++ w3 ++ raw ++ cl, raw, rest)

/-- Matcher for the scalar shape of the extraction pattern
(source lines 168-170):
`<(?P<simple_tag>DisplayName|Description|Tooltip)>\s*(?P<simple_text>.*?)\s*</(?P=simple_tag)>`.
Returns (captured tag text, captured inner text, remainder). -/
def matchSimple (s : List Char) : Option (List Char × List Char × List Char) :=
  match dropLit "<".data s with
  | none => none
  | some s1 =>
    match altCI ["DisplayName".data, "Description".data, "Tooltip".data] s1 with
    | none => none
    | some (tagTxt, s2) =>
      match dropLit ">".data s2 with
      | none => none
      | some s3 =>
        match lazyUntil (closeSimple tagTxt) (s3.dropWhile isSpace) with
        | none => none
        | some (raw, _cl, rest) => some (tagTxt, raw, rest)

/-- One extracted fragment: the tuple `(tag, text, context)` appended at
source lines 176 and 178. -/
structure Frag where
  tag : List Char
  text : List Char
  ctx : Option (List Char)
  deriving DecidableEq

/-- `pattern.finditer(content)` together with the per-match tuple
construction (source lines 173-178): scan left to right, at each
position trying the block shape first (regex alternation order), then
the scalar shape, else advancing one character; matches are
non-overlapping.  Both shapes consume at least one character, so
`fuel = content.length` is sufficient. -/
def scanMatches : Nat → List Char → List Frag
  | 0, _ => []
  | _ + 1, [] => []
  | f + 1, c :: s' =>
    match matchFull (c :: s') with
    | some (full, raw, rest) =>
      ⟨"value".data, stripChars raw, some full⟩ :: scanMatches f rest
    | none =>
      match matchSimple (c :: s') with
      | some (tagTxt, raw, rest) =>
        ⟨tagTxt, stripChars raw, none⟩ :: scanMatches f rest
      | none => scanMatches f s'

/-- `SKIP_KEYWORDS` (source line 27). -/
def SKIP_KEYWORDS : List (List Char) :=
  ["DisplayName".data, "Item".data, "Description".data, "Group".data]

/-- Python substring test `pat in s`. -/
def containsSub (pat : List Char) : List Char → Bool
  | [] => (dropLit pat []).isSome
  | c :: rest => (dropLit pat (c :: rest)).isSome || containsSub pat rest

/-- `is_chinese` (source lines 222-223): `re.search(r'[一-鿿]', text)`. -/
def is_chinese (s : List Char) : Bool :=
  s.any (fun c => 0x4e00 ≤ c.toNat && c.toNat ≤ 0x9fff)

/-- The filtering predicate of source line 182: a fragment is kept iff
no skip keyword occurs in its text, the text is not already Chinese,
and its length is at least 2. -/
def keepFrag (f : Frag) : Bool :=
  !(SKIP_KEYWORDS.any (fun kw => containsSub kw f.text) ||
    is_chinese f.text || decide (f.text.length < 2))

/-- `parse_translatable_content` (source lines 156-185) restricted to
its pure content→fragments core (file reading and encoding detection
are outside the model). -/
def parse_translatable_content (content : List Char) : List Frag :=
  (scanMatches content.length content).filter keepFrag

/-!  ## Translation client (`translate_text`, `clean_translation`, source lines 74-132) -/

/-- First alternative of a list of exact literals that is a prefix of
`s`; returns the remainder.  The alternations this models have pairwise
distinct first characters, so committing to the first match agrees with
the backtracking engine. -/
def dropAnyPre (lits : List (List Char)) (s : List Char) : Option (List Char) :=
  match lits with
  | [] => none
  | l :: ls =>
    match dropLit l s with
    | some r => some r
    | none => dropAnyPre ls s

/-- Sanitization pattern 1 (source line 124),
`^(显示名称|描述|工具提示)[：:]?\s*`: anchored at the start, so `re.sub`
removes at most one occurrence.  After the alternation, the optional
colon and the trailing `\s*` are greedy and nothing follows them. -/
def cleanP1 (s : List Char) : List Char :=
  match dropAnyPre ["显示名称".data, "描述".data, "工具提示".data] s with
  | none => s
  | some r1 =>
    match r1 with
    | c :: rest =>
      if c = '：' ∨ c = ':' then rest.dropWhile isSpace
      else r1.dropWhile isSpace
    | [] => []

/-- Sanitization pattern 2 (source line 125),
`</?\s*(显示名称|描述|工具提示|值|数据)\s*>`: matcher at the head of `s`.
The optional `/` and each `\s*` are followed by characters their
classes exclude, so maximal munch agrees with the backtracking engine. -/
def matchP2 (s : List Char) : Option (List Char) :=
  match dropLit "<".data s with
  | none => none
  | some s1 =>
    let s2 := match dropLit "/".data s1 with
      | some r => r
      | none => s1
    match dropAnyPre ["显示名称".data, "描述".data, "工具提示".data,
        "值".data, "数据".data] (s2.dropWhile isSpace) with
    | none => none
    | some s4 => dropLit ">".data (s4.dropWhile isSpace)

/-- Word characters for Python's Unicode `\w`, restricted to the
character classes occurring in this domain: ASCII alphanumerics,
underscore, and CJK unified ideographs. -/
def isWordChar (c : Char) : Bool :=
  c.isAlphanum || c = '_' || (0x4e00 ≤ c.toNat && c.toNat ≤ 0x9fff)

/-- Greedy backtracking for `\w+` followed by `\s*名称=`: try word-run
lengths `j+1, j, ..., 1`. -/
def tryWordPlus (s : List Char) : Nat → Option (List Char)
  | 0 => none
  | j + 1 =>
    match dropLit "名称=".data ((s.drop (j + 1)).dropWhile isSpace) with
    | some r => some r
    | none => tryWordPlus s j

/-- Sanitization pattern 3 (source line 126), `<(\w+)\s*名称=`:
matcher at the head of `s`. -/
def matchP3 (s : List Char) : Option (List Char) :=
  match dropLit "<".data s with
  | none => none
  | some s1 => tryWordPlus s1 (s1.takeWhile isWordChar).length

/-- Sanitization pattern 4 (source line 127), the literal `</값>`. -/
def matchP4 (s : List Char) : Option (List Char) := dropLit "</값>".data s

/-- Sanitization pattern 5 (source line 128), the literal `</数据>`. -/
def matchP5 (s : List Char) : Option (List Char) := dropLit "</数据>".data s

/-- Global `re.sub(pattern, '', s)` for one of the unanchored
sanitization patterns. -/
def subPat (m : List Char → Option (List Char)) (s : List Char) : List Char :=
  scanF m [] s.length s

/-- `clean_translation` (source lines 122-132): apply the five
sanitization substitutions in order, then strip. -/
def clean_translation (s : List Char) : List Char :=
  stripChars (subPat matchP5 (subPat matchP4 (subPat matchP3
    (subPat matchP2 (cleanP1 s)))))

/-- `MAX_RETRIES` (source line 23). -/
def MAX_RETRIES : Nat := 3

/-- `REQUEST_DELAY` (source line 24), in seconds (4.0 in the source);
each failed attempt sleeps this fixed interval once. -/
def REQUEST_DELAY : Nat := 4

/-- Outcome of one `requests.post` attempt, as observed by the retry
loop of `translate_text` (source lines 100-119): `fail` covers a
network error, a non-2xx status, or a response without the
`output.text` field (all of which raise and land in the `except`
branch); `ok t` carries the raw `result["output"]["text"]`. -/
inductive NetOutcome
  | fail
  | ok (text : List Char)

/-- The retry loop `for attempt in range(MAX_RETRIES)` of
`translate_text` (source lines 100-119).  `net i` is the outcome of the
network attempt with index `i`; the result triple is
(returned translation or `none` when every attempt failed,
number of network calls made, number of backoff sleeps performed).
A raw success whose sanitized text is empty raises (source lines
109-111) and is retried like a failure; every failure sleeps the fixed
`REQUEST_DELAY` once (source line 119). -/
def tryAttempts (net : Nat → NetOutcome) :
    Nat → Nat → Option (List Char) × Nat × Nat
  | _, 0 => (none, 0, 0)
  | i, rem + 1 =>
    match net i with
    | NetOutcome.fail =>
      let r := tryAttempts net (i + 1) rem
      (r.1, r.2.1 + 1, r.2.2 + 1)
    | NetOutcome.ok t =>
      let tr := clean_translation (stripChars t)
      if tr = [] then
        let r := tryAttempts net (i + 1) rem
        (r.1, r.2.1 + 1, r.2.2 + 1)
      else (some tr, 1, 0)

/-- The cache key `f"{tag}:{text}"` (source line 77). -/
def cacheKey (tag text : List Char) : List Char := tag ++ ":".data ++ text

/-- Lookup in the in-memory cache dictionary. -/
def lookupCache (key : List Char) :
    List (List Char × List Char) → Option (List Char)
  | [] => none
  | (k, v) :: rest => if k = key then some v else lookupCache key rest

/-- `translate_text` (source lines 74-120) restricted to its pure core:
on a cache hit return the cached value with no network call; on a miss
run the retry loop, and on success store the sanitized translation in
the cache (write-through; `save_cache` is I/O outside the model).
Result: (translation or `none` for the exhausted-retries
`TranslationError`, updated cache, network calls made, sleeps
performed). -/
def translate_text (net : Nat → NetOutcome)
    (cache : List (List Char × List Char)) (tag text : List Char) :
    Option (List Char) × List (List Char × List Char) × Nat × Nat :=
  match lookupCache (cacheKey tag text) cache with
  | some v => (some v, cache, 0, 0)
  | none =>
    match tryAttempts net 0 MAX_RETRIES with
    | (some tr, c, sl) => (some tr, (cacheKey tag text, tr) :: cache, c, sl)
    | (none, c, sl) => (none, cache, c, sl)

/-!  ## Shard worker (`batch_translate`, source lines 225-234) -/

/-- The `for` loop inside the `try` of `batch_translate`: translate the
fragments of the batch in order, accumulating result tuples; `none`
when some `translate_text` call raises.  `trf` abstracts
`translator.translate_text`: the per-fragment outcome (`none` = the
call raised after exhausting retries). -/
def translateAllFrags (trf : List Char → List Char → Option (List Char)) :
    List Frag → Option (List TransItem)
  | [] => some []
  | f :: rest =>
    match trf f.tag f.text with
    | none => none
    | some t =>
      match translateAllFrags trf rest with
      | none => none
      | some rs => some (⟨f.tag, f.text, t, f.ctx⟩ :: rs)

/-- `batch_translate` (source lines 225-234): the whole batch loop runs
inside one `try`; if any fragment's translate call raises, the `except`
branch returns `(tag, text, text, context)` for EVERY item of the
batch. -/
def batch_translate (trf : List Char → List Char → Option (List Char))
    (batch : List Frag) : List TransItem :=
  match translateAllFrags trf batch with
  | some rs => rs
  | none => batch.map (fun f => ⟨f.tag, f.text, f.text, f.ctx⟩)

/-!  ## Scheduler sharding (`process_file`, source line 274) -/

/-- The Python slice `matches[i::k]` of source line 274: the elements
of `l` whose index is congruent to `i` modulo `k` (for `i < k`), in
their original order. -/
def shard (l : List Frag) (i k : Nat) : List Frag :=
  (l.enum.filter (fun p => p.1 % k == i)).map Prod.snd

/-- `batches = [matches[i::len(translators)] for i in range(len(translators))]`
(source line 274). -/
def makeBatches (l : List Frag) (k : Nat) : List (List Frag) :=
  (List.range k).map (fun i => shard l i k)

/-!  ## Counting occurrences of a literal substring -/

/-- `pat` occurs in `s` at position `i`. -/
def occAt (pat s : List Char) (i : Nat) : Bool :=
  (dropLit pat (s.drop i)).isSome

/-- The positions (≤ `s.length`) at which `pat` occurs in `s`. -/
def occList (pat s : List Char) : List Nat :=
  (List.range (s.length + 1)).filter (occAt pat s)

/-- Number of positions at which `pat` occurs in `s`. -/
def occCount (pat s : List Char) : Nat := (occList pat s).length


/-!  ## Concrete input shapes for the Value-replacement theorems -/

/-- Opening of a whitespace-free block-shape instance,
`<data name="NAME">`. -/
def dOpen (name : List Char) : List Char :=
  "<data name=\"".data ++ name ++ "\">".data

/-- The literal `<value>`. -/
def vOpen : List Char := "<value>".data

/-- The literal `</value>`. -/
def vClose : List Char := "</value>".data

/-- The literal `</data>`. -/
def dClose : List Char := "</data>".data

/-- A whitespace-free Value-shape anchor with outer name `name` and
inner value text `v`, as captured by the extraction pattern:
`<data name="NAME"><value>V</value></data>`. -/
def anchorOf (name v : List Char) : List Char :=
  dOpen name ++ vOpen ++ v ++ vClose ++ dClose

/-- The same anchor with its inner value text replaced. -/
def anchorTr (name t : List Char) : List Char :=
  dOpen name ++ vOpen ++ t ++ vClose ++ dClose

/-- Shape invariant of extracted fragments (the property of C10): a
Value-category fragment carries an anchor that is a substring of the
input content and that contains the fragment's `sourceText` wrapped in
a (case-insensitively spelled) value element — the anchor text is
`u ++ vo ++ mid ++ vc ++ w` with `vo`/`vc` case-insensitive spellings
of `<value>`/`</value>` and `mid` stripping to the `sourceText`; a
fragment of any other category has no anchor. -/
def GoodFrag (content : List Char) (f : Frag) : Prop :=
  (f.tag = "value".data →
    ∃ ctx, f.ctx = some ctx ∧ (∃ x y, content = x ++ ctx ++ y) ∧
      ∃ u vo mid vc w, ctx = u ++ vo ++ mid ++ vc ++ w ∧
        ciEq vo "<value>".data = true ∧ ciEq vc "</value>".data = true ∧
        stripChars mid = f.text) ∧
  (f.tag ≠ "value".data → f.ctx = none)


/-!  ## Basic lemmas about the literal and whitespace matchers -/

theorem dropLit_eq_some {lit s r : List Char} :
    dropLit lit s = some r ↔ s = lit ++ r := by
  induction lit generalizing s with
  | nil => simp [dropLit]
  | cons l ls ih =>
    cases s with
    | nil => simp [dropLit]
    | cons c cs =>
      by_cases hc : c = l
      · subst hc
        simp only [dropLit, if_pos rfl, List.cons_append, List.cons.injEq,
          true_and]
        exact ih
      · simp [dropLit, hc]

theorem dropLit_append (lit x : List Char) :
    dropLit lit (lit ++ x) = some x :=
  dropLit_eq_some.mpr rfl

theorem matchLit_eq_some {pat s r : List Char} :
    matchLit pat s = some r ↔ pat ≠ [] ∧ s = pat ++ r := by
  unfold matchLit
  by_cases h : pat = []
  · simp [h]
  · simp [h, dropLit_eq_some]

theorem wsCount_eq_zero {s : List Char} (h : startsWithWs s = false) :
    wsCount s = 0 := by
  cases s with
  | nil => rfl
  | cons c r =>
    simp only [startsWithWs] at h
    simp [wsCount, h]

theorem wsStar_of_head {s : List Char}
    (k : List Char → Option (List Char)) (h : startsWithWs s = false) :
    wsStar k s = k s := by
  unfold wsStar
  rw [wsCount_eq_zero h]
  rfl

theorem startsWithWs_append_left {v w : List Char}
    (hv : startsWithWs v = false) (hw : startsWithWs w = false) :
    startsWithWs (v ++ w) = false := by
  cases v with
  | nil => simpa using hw
  | cons c r => simpa [startsWithWs] using hv

theorem startsWithWs_lt (x : List Char) :
    startsWithWs ('<' :: x) = false := by
  simp [startsWithWs, isSpace]

theorem startsWithWs_tagClose (tag x : List Char) :
    startsWithWs (tagClose tag ++ x) = false := by
  simp only [tagClose, List.cons_append]
  exact startsWithWs_lt _

/-- Canonical success of the `<tag>\s*orig\s*</tag>` matcher on a
whitespace-free instance. -/
theorem matchTag_canonical {orig : List Char} (tag x : List Char)
    (h : startsWithWs orig = false) :
    matchTag tag orig (tagOpen tag ++ (orig ++ (tagClose tag ++ x))) =
      some x := by
  unfold matchTag
  simp only [dropLit_append]
  rw [wsStar_of_head _ (startsWithWs_append_left h (startsWithWs_tagClose tag x))]
  simp only [dropLit_append]
  rw [wsStar_of_head _ (startsWithWs_tagClose tag x)]
  exact dropLit_append _ _

theorem tryFrom_some {k : List Char → Option (List Char)} {s r : List Char}
    {j : Nat} (h : tryFrom k s j = some r) :
    ∃ j', k (s.drop j') = some r := by
  induction j with
  | zero => exact ⟨0, by simpa using h⟩
  | succ j ih =>
    unfold tryFrom at h
    cases hk : k (s.drop (j + 1)) with
    | some r' =>
      rw [hk] at h
      exact ⟨j + 1, by rw [hk]; simpa using h⟩
    | none =>
      rw [hk] at h
      exact ih h

theorem matchTag_opens {tag orig s r : List Char}
    (h : matchTag tag orig s = some r) : ∃ z, s = tagOpen tag ++ z := by
  unfold matchTag at h
  cases hd : dropLit (tagOpen tag) s with
  | none => rw [hd] at h; exact absurd h (by simp)
  | some s1 => exact ⟨s1, dropLit_eq_some.mp hd⟩

theorem matchTag_shrink {tag orig s r : List Char}
    (h : matchTag tag orig s = some r) : r.length < s.length := by
  unfold matchTag at h
  cases hd : dropLit (tagOpen tag) s with
  | none => rw [hd] at h; exact absurd h (by simp)
  | some s1 =>
    rw [hd] at h
    have hs : s = tagOpen tag ++ s1 := dropLit_eq_some.mp hd
    obtain ⟨j1, h1⟩ := tryFrom_some h
    cases ho : dropLit orig (s1.drop j1) with
    | none => rw [ho] at h1; exact absurd h1 (by simp)
    | some s3 =>
      rw [ho] at h1
      obtain ⟨j2, h2⟩ := tryFrom_some h1
      have h3 : s1.drop j1 = orig ++ s3 := dropLit_eq_some.mp ho
      have h4 : s3.drop j2 = tagClose tag ++ r := dropLit_eq_some.mp h2
      have l1 : r.length ≤ s3.length := by
        have := congrArg List.length h4
        simp [List.length_drop] at this
        omega
      have l2 : s3.length ≤ s1.length := by
        have := congrArg List.length h3
        simp [List.length_drop] at this
        omega
      have l3 : s.length = (tagOpen tag).length + s1.length := by
        simp [hs]
      have l4 : 0 < (tagOpen tag).length := by simp [tagOpen]
      omega

theorem matchLit_shrink {pat s r : List Char}
    (h : matchLit pat s = some r) : r.length < s.length := by
  obtain ⟨hne, hs⟩ := matchLit_eq_some.mp h
  have : 0 < pat.length := List.length_pos.mpr hne
  simp [hs]
  omega

/-!  ## Generic lemmas about the substitution scan `scanF` -/

theorem scanF_cons_some {m : List Char → Option (List Char)}
    {repl : List Char} {c : Char} {s rem : List Char} (f : Nat)
    (h : m (c :: s) = some rem) :
    scanF m repl (f + 1) (c :: s) = repl ++ scanF m repl f rem := by
  simp only [scanF, h]

theorem scanF_cons_none {m : List Char → Option (List Char)}
    {repl : List Char} {c : Char} {s : List Char} (f : Nat)
    (h : m (c :: s) = none) :
    scanF m repl (f + 1) (c :: s) = c :: scanF m repl f s := by
  simp only [scanF, h]

theorem scanF_fuel {m : List Char → Option (List Char)} {repl : List Char}
    (hm : ∀ s t, m s = some t → t.length < s.length) :
    ∀ (n : Nat) (s : List Char) (f f' : Nat), s.length ≤ n →
      s.length ≤ f → s.length ≤ f' →
      scanF m repl f s = scanF m repl f' s := by
  intro n
  induction n with
  | zero =>
    intro s f f' hn _ _
    have hs : s = [] := List.length_eq_zero.mp (Nat.le_zero.mp hn)
    subst hs
    cases f <;> cases f' <;> rfl
  | succ n ih =>
    intro s f f' hn hf hf'
    cases s with
    | nil => cases f <;> cases f' <;> rfl
    | cons c rest =>
      have h1 : 1 ≤ f := le_trans (by simp) hf
      have h1' : 1 ≤ f' := le_trans (by simp) hf'
      obtain ⟨f0, rfl⟩ : ∃ f0, f = f0 + 1 :=
        ⟨f - 1, by omega⟩
      obtain ⟨f0', rfl⟩ : ∃ f0', f' = f0' + 1 :=
        ⟨f' - 1, by omega⟩
      cases hms : m (c :: rest) with
      | some rem =>
        have hlt := hm _ _ hms
        rw [scanF_cons_some f0 hms, scanF_cons_some f0' hms]
        simp only [List.length_cons] at hlt hf hf' hn
        rw [ih rem f0 f0' (by omega) (by omega) (by omega)]
      | none =>
        rw [scanF_cons_none f0 hms, scanF_cons_none f0' hms]
        simp only [List.length_cons] at hf hf' hn
        rw [ih rest f0 f0' (by omega) (by omega) (by omega)]

theorem scanF_no_match {m : List Char → Option (List Char)}
    {repl : List Char} :
    ∀ (s : List Char) (f : Nat),
      (∀ p q, s = p ++ q → m q = none) → scanF m repl f s = s := by
  intro s
  induction s with
  | nil => intro f _; cases f <;> rfl
  | cons c rest ih =>
    intro f h
    cases f with
    | zero => rfl
    | succ f0 =>
      have h0 : m (c :: rest) = none := h [] (c :: rest) rfl
      rw [scanF_cons_none f0 h0]
      rw [ih f0 (fun p q hpq => h (c :: p) q (by simp [hpq]))]

theorem scanF_step {m : List Char → Option (List Char)}
    {repl : List Char}
    (hm : ∀ s t, m s = some t → t.length < s.length) :
    ∀ (a : List Char) {r rem : List Char} (f : Nat),
      (∀ p q, a = p ++ q → q ≠ [] → m (q ++ r) = none) →
      m r = some rem → (a ++ r).length ≤ f →
      scanF m repl f (a ++ r) =
        a ++ repl ++ scanF m repl rem.length rem := by
  intro a
  induction a with
  | nil =>
    intro r rem f _ hr hf
    have hrlen := hm _ _ hr
    cases r with
    | nil => simp at hrlen
    | cons c rest =>
      simp only [List.nil_append] at hf ⊢
      obtain ⟨f0, rfl⟩ : ∃ f0, f = f0 + 1 :=
        ⟨f - 1, by simp at hf; omega⟩
      rw [scanF_cons_some f0 hr]
      simp only [List.length_cons] at hf hrlen
      rw [scanF_fuel hm rem.length rem f0 rem.length le_rfl (by omega) le_rfl]
  | cons c a' ih =>
    intro r rem f ha hr hf
    obtain ⟨f0, rfl⟩ : ∃ f0, f = f0 + 1 :=
      ⟨f - 1, by simp at hf; omega⟩
    have h0 : m (c :: (a' ++ r)) = none := by
      have := ha [] (c :: a') rfl (by simp)
      simpa using this
    rw [List.cons_append, scanF_cons_none f0 h0]
    rw [ih f0 (fun p q hpq hq => ha (c :: p) q (by simp [hpq]) hq) hr
      (by simp at hf ⊢; omega)]
    simp

theorem occAt_of_decomp {pat s x y : List Char} (h : s = x ++ pat ++ y) :
    occAt pat s x.length = true := by
  unfold occAt
  have : s.drop x.length = pat ++ y := by
    rw [h, List.append_assoc, List.drop_left]
  rw [this, dropLit_append]
  rfl

theorem decomp_len_le {pat s x y : List Char} (h : s = x ++ pat ++ y) :
    x.length ≤ s.length := by
  subst h; simp

theorem mem_occList_of_decomp {pat s x y : List Char}
    (h : s = x ++ pat ++ y) : x.length ∈ occList pat s := by
  unfold occList
  rw [List.mem_filter]
  refine ⟨List.mem_range.mpr ?_, occAt_of_decomp h⟩
  have := decomp_len_le h
  omega

/-- With exactly one occurrence, any two decompositions around `pat`
coincide. -/
theorem occ_unique {pat s x y x' y' : List Char}
    (hc : occCount pat s = 1) (h : s = x ++ pat ++ y)
    (h' : s = x' ++ pat ++ y') : x = x' ∧ y = y' := by
  have hm := mem_occList_of_decomp h
  have hm' := mem_occList_of_decomp h'
  obtain ⟨a, ha⟩ := List.length_eq_one.mp hc
  rw [ha, List.mem_singleton] at hm hm'
  have hlen : x.length = x'.length := by rw [hm, hm']
  have hx2 : x ++ (pat ++ y) = x' ++ (pat ++ y') := by
    rw [← List.append_assoc, ← List.append_assoc, ← h, ← h']
  obtain ⟨hx, hrest⟩ := List.append_inj hx2 hlen
  exact ⟨hx, List.append_inj_right hrest rfl⟩

/-- With exactly two occurrences, at known distinct positions, any
decomposition is at one of the two. -/
theorem occ_two {pat s x y x' y' z w : List Char}
    (hc : occCount pat s = 2) (h : s = x ++ pat ++ y)
    (h' : s = x' ++ pat ++ y') (hne : x.length ≠ x'.length)
    (hz : s = z ++ pat ++ w) :
    z.length = x.length ∨ z.length = x'.length := by
  have hm := mem_occList_of_decomp h
  have hm' := mem_occList_of_decomp h'
  have hmz := mem_occList_of_decomp hz
  obtain ⟨a, b, hab⟩ := List.length_eq_two.mp hc
  rw [hab] at hm hm' hmz
  simp only [List.mem_cons, List.mem_singleton, List.not_mem_nil, or_false] at hm hm' hmz
  rcases hm with h1 | h1 <;> rcases hm' with h2 | h2 <;>
    rcases hmz with h3 | h3 <;> omega

theorem anchorOf_ne_nil (name v : List Char) : anchorOf name v ≠ [] := by
  intro h
  have := congrArg List.length h
  simp [anchorOf, dOpen] at this

theorem tagOpen_value : tagOpen "value".data = vOpen := by decide

theorem tagClose_value : tagClose "value".data = vClose := by decide

theorem tagRepl_value (t : List Char) :
    tagRepl "value".data t = vOpen ++ t ++ vClose := by
  rw [tagRepl, tagOpen_value, tagClose_value]

/-- Pass 1 of the Value branch (source lines 196-200): substituting
inside a whitespace-free anchor whose `<value>` open tag occurs exactly
once rewrites exactly the inner value. -/
theorem subTag_anchor (name v t : List Char) (hws : startsWithWs v = false)
    (h1 : occCount vOpen (anchorOf name v) = 1) :
    subTag "value".data v t (anchorOf name v) = anchorTr name t := by
  have hshr : ∀ s r, matchTag "value".data v s = some r →
      r.length < s.length := fun _ _ h => matchTag_shrink h
  have hA : anchorOf name v =
      dOpen name ++ (vOpen ++ (v ++ (vClose ++ dClose))) := by
    simp [anchorOf, List.append_assoc]
  have hr : matchTag "value".data v (vOpen ++ (v ++ (vClose ++ dClose))) =
      some dClose := by
    have := matchTag_canonical "value".data dClose hws
    rw [tagOpen_value, tagClose_value] at this
    exact this
  have ha : ∀ p q, dOpen name = p ++ q → q ≠ [] →
      matchTag "value".data v (q ++ (vOpen ++ (v ++ (vClose ++ dClose)))) =
        none := by
    intro p q hpq hq
    cases hmx : matchTag "value".data v
        (q ++ (vOpen ++ (v ++ (vClose ++ dClose)))) with
    | none => rfl
    | some u =>
      exfalso
      obtain ⟨z, hz⟩ := matchTag_opens hmx
      rw [tagOpen_value] at hz
      have hdec : anchorOf name v = p ++ vOpen ++ z := by
        rw [hA, hpq, List.append_assoc, hz, ← List.append_assoc]
      have hcan : anchorOf name v =
          dOpen name ++ vOpen ++ (v ++ vClose ++ dClose) := by
        simp [anchorOf, List.append_assoc]
      obtain ⟨hp, -⟩ := occ_unique h1 hdec hcan
      have hlen : (dOpen name).length = p.length + q.length := by
        rw [hpq]; simp
      have hq0 : 0 < q.length := List.length_pos.mpr hq
      rw [hp] at hlen
      omega
  have hno : ∀ p q, dClose = p ++ q → matchTag "value".data v q = none := by
    intro p q hpq
    cases hmx : matchTag "value".data v q with
    | none => rfl
    | some u =>
      exfalso
      obtain ⟨z, hz⟩ := matchTag_opens hmx
      rw [tagOpen_value] at hz
      have hlen : dClose.length = p.length + (vOpen.length + z.length) := by
        rw [hpq, hz]; simp
      have h7 : dClose.length = 7 := by decide
      have h7' : vOpen.length = 7 := by decide
      have hp : p = [] := List.length_eq_zero.mp (by omega)
      have hzn : z = [] := List.length_eq_zero.mp (by omega)
      subst hp; subst hzn
      have : dClose = vOpen := by rw [hpq, hz]; simp
      exact absurd this (by decide)
  unfold subTag
  rw [hA]
  rw [scanF_step hshr (dOpen name)
    ((dOpen name ++ (vOpen ++ (v ++ (vClose ++ dClose)))).length) ha hr le_rfl]
  rw [scanF_no_match dClose dClose.length hno]
  rw [tagRepl_value]
  simp [anchorTr, List.append_assoc]

/-- Pass 2 of the Value branch (source lines 201 and 209): substituting
the escaped anchor literal in a content where it occurs exactly once
rewrites exactly that span. -/
theorem subLit_unique {A : List Char} (B pre post : List Char)
    (hA : A ≠ []) (h : occCount A (pre ++ A ++ post) = 1) :
    subLit A B (pre ++ A ++ post) = pre ++ B ++ post := by
  have hshr : ∀ s r, matchLit A s = some r → r.length < s.length :=
    fun _ _ hh => matchLit_shrink hh
  have hr : matchLit A (A ++ post) = some post :=
    matchLit_eq_some.mpr ⟨hA, rfl⟩
  have ha : ∀ p q, pre = p ++ q → q ≠ [] →
      matchLit A (q ++ (A ++ post)) = none := by
    intro p q hpq hq
    cases hmx : matchLit A (q ++ (A ++ post)) with
    | none => rfl
    | some u =>
      exfalso
      obtain ⟨-, hz⟩ := matchLit_eq_some.mp hmx
      have hdec : pre ++ A ++ post = p ++ A ++ u := by
        rw [List.append_assoc, hpq, List.append_assoc, hz,
          ← List.append_assoc]
      obtain ⟨hp, -⟩ := occ_unique h rfl hdec
      have hlen : pre.length = p.length + q.length := by rw [hpq]; simp
      have hq0 : 0 < q.length := List.length_pos.mpr hq
      rw [hp] at hlen
      omega
  have hno : ∀ p q, post = p ++ q → matchLit A q = none := by
    intro p q hpq
    cases hmx : matchLit A q with
    | none => rfl
    | some u =>
      exfalso
      obtain ⟨-, hz⟩ := matchLit_eq_some.mp hmx
      have hdec : pre ++ A ++ post = (pre ++ A ++ p) ++ A ++ u := by
        rw [hpq, hz]; simp [List.append_assoc]
      obtain ⟨hp, -⟩ := occ_unique h rfl hdec
      have hlen : pre.length = pre.length + A.length + p.length := by
        conv_lhs => rw [hp]
        simp
        omega
      have hA0 : 0 < A.length := List.length_pos.mpr hA
      omega
  unfold subLit
  rw [List.append_assoc pre A post]
  rw [scanF_step hshr pre ((pre ++ (A ++ post)).length) ha hr le_rfl]
  rw [scanF_no_match post post.length hno]

theorem buildRepl_value (v t A : List Char) (hA : A ≠ []) :
    buildRepl ⟨"value".data, v, t, some A⟩ =
      Repl.lit A (subTag "value".data v t A) := by
  simp [buildRepl, hA]

theorem buildRepl_scalar (tag orig tr : List Char) :
    buildRepl ⟨tag, orig, tr, none⟩ = Repl.tagPat tag orig tr := by
  simp [buildRepl]

/-- C2, counterexample: the scalar branch does NOT replace only the
first occurrence.  `re.sub` with the default `count = 0` (source line
209) replaces every occurrence of `<Tooltip>\s*Ab\s*</Tooltip>`, so on
a content with two occurrences the second one is rewritten as well,
contradicting the claim that later occurrences are left unchanged. -/
theorem C2_counterexample :
    replace_translated_content
        [⟨"Tooltip".data, "Ab".data, "Cd".data, none⟩]
        "<Tooltip>Ab</Tooltip>!<Tooltip>Ab</Tooltip>".data =
      "<Tooltip>Cd</Tooltip>!<Tooltip>Cd</Tooltip>".data ∧
    "<Tooltip>Cd</Tooltip>!<Tooltip>Cd</Tooltip>".data ≠
      "<Tooltip>Cd</Tooltip>!<Tooltip>Ab</Tooltip>".data := by
  constructor
  · decide
  · decide

/-- C2, amended: for a scalar-category (no-anchor) translation result,
the replacement engine replaces EVERY occurrence in the content of the
wrapping-element pattern whose inner text is exactly `sourceText`,
substituting `translatedText` (here shown for a content with exactly
two wrapping occurrences of the pattern: both are rewritten). -/
theorem C2_scalar_replaces_all (tag s t pre mid post : List Char)
    (hws : startsWithWs s = false)
    (hocc : occCount (tagOpen tag)
        (pre ++ tagRepl tag s ++ mid ++ tagRepl tag s ++ post) = 2) :
    replace_translated_content [⟨tag, s, t, none⟩]
        (pre ++ tagRepl tag s ++ mid ++ tagRepl tag s ++ post) =
      pre ++ tagRepl tag t ++ mid ++ tagRepl tag t ++ post := by
  have hshr : ∀ u r, matchTag tag s u = some r → r.length < u.length :=
    fun _ _ h => matchTag_shrink h
  have hO0 : 0 < (tagOpen tag).length := by simp [tagOpen]
  have hW0 : 0 < (tagRepl tag s).length := by
    simp [tagRepl, tagOpen]
  have hscont : pre ++ tagRepl tag s ++ mid ++ tagRepl tag s ++ post =
      pre ++ (tagOpen tag ++ (s ++ (tagClose tag ++
        (mid ++ (tagOpen tag ++ (s ++ (tagClose tag ++ post))))))) := by
    simp [tagRepl, List.append_assoc]
  have hcan1 : pre ++ tagRepl tag s ++ mid ++ tagRepl tag s ++ post =
      pre ++ tagOpen tag ++
        (s ++ (tagClose tag ++
          (mid ++ (tagOpen tag ++ (s ++ (tagClose tag ++ post)))))) := by
    simp [tagRepl, List.append_assoc]
  have hcan2 : pre ++ tagRepl tag s ++ mid ++ tagRepl tag s ++ post =
      (pre ++ tagRepl tag s ++ mid) ++ tagOpen tag ++
        (s ++ (tagClose tag ++ post)) := by
    simp [tagRepl, List.append_assoc]
  have hne : pre.length ≠ (pre ++ tagRepl tag s ++ mid).length := by
    simp only [List.length_append]
    omega
  have hr1 : matchTag tag s (tagOpen tag ++ (s ++ (tagClose tag ++
      (mid ++ (tagOpen tag ++ (s ++ (tagClose tag ++ post))))))) =
      some (mid ++ (tagOpen tag ++ (s ++ (tagClose tag ++ post)))) :=
    matchTag_canonical tag _ hws
  have hr2 : matchTag tag s
      (tagOpen tag ++ (s ++ (tagClose tag ++ post))) = some post :=
    matchTag_canonical tag _ hws
  have ha1 : ∀ p q, pre = p ++ q → q ≠ [] →
      matchTag tag s (q ++ (tagOpen tag ++ (s ++ (tagClose tag ++
        (mid ++ (tagOpen tag ++ (s ++ (tagClose tag ++ post)))))))) =
        none := by
    intro p q hpq hq
    cases hmx : matchTag tag s (q ++ (tagOpen tag ++ (s ++ (tagClose tag ++
        (mid ++ (tagOpen tag ++ (s ++ (tagClose tag ++ post)))))))) with
    | none => rfl
    | some u =>
      exfalso
      obtain ⟨z, hz⟩ := matchTag_opens hmx
      have hdec : pre ++ tagRepl tag s ++ mid ++ tagRepl tag s ++ post =
          p ++ tagOpen tag ++ z := by
        rw [hscont, hpq, List.append_assoc, hz, ← List.append_assoc]
      have hd := occ_two hocc hcan1 hcan2 hne hdec
      have hlen : pre.length = p.length + q.length := by rw [hpq]; simp
      have hq0 : 0 < q.length := List.length_pos.mpr hq
      simp only [List.length_append] at hd
      omega
  have ha2 : ∀ p q, mid = p ++ q → q ≠ [] →
      matchTag tag s (q ++ (tagOpen tag ++ (s ++ (tagClose tag ++ post)))) =
        none := by
    intro p q hpq hq
    cases hmx : matchTag tag s
        (q ++ (tagOpen tag ++ (s ++ (tagClose tag ++ post)))) with
    | none => rfl
    | some u =>
      exfalso
      obtain ⟨z, hz⟩ := matchTag_opens hmx
      have hmid : mid ++ (tagOpen tag ++ (s ++ (tagClose tag ++ post))) =
          p ++ (tagOpen tag ++ z) := by
        rw [hpq, List.append_assoc, hz]
      have hdec : pre ++ tagRepl tag s ++ mid ++ tagRepl tag s ++ post =
          (pre ++ tagRepl tag s ++ p) ++ tagOpen tag ++ z := by
        rw [hscont, hmid]
        simp [tagRepl, List.append_assoc]
      have hd := occ_two hocc hcan1 hcan2 hne hdec
      have hlen : mid.length = p.length + q.length := by rw [hpq]; simp
      have hq0 : 0 < q.length := List.length_pos.mpr hq
      simp only [List.length_append] at hd
      omega
  have hno : ∀ p q, post = p ++ q → matchTag tag s q = none := by
    intro p q hpq
    cases hmx : matchTag tag s q with
    | none => rfl
    | some u =>
      exfalso
      obtain ⟨z, hz⟩ := matchTag_opens hmx
      have hdec : pre ++ tagRepl tag s ++ mid ++ tagRepl tag s ++ post =
          (pre ++ tagRepl tag s ++ mid ++ tagRepl tag s ++ p) ++
            tagOpen tag ++ z := by
        rw [hscont, hpq, hz]
        simp [tagRepl, List.append_assoc]
      have hd := occ_two hocc hcan1 hcan2 hne hdec
      simp only [List.length_append] at hd
      omega
  simp only [replace_translated_content, List.map_cons, List.map_nil,
    buildRepl_scalar, List.foldl_cons, List.foldl_nil, applyRepl]
  unfold subTag
  rw [hscont]
  rw [scanF_step hshr pre
    ((pre ++ (tagOpen tag ++ (s ++ (tagClose tag ++
      (mid ++ (tagOpen tag ++ (s ++ (tagClose tag ++ post)))))))).length)
    ha1 hr1 le_rfl]
  rw [scanF_step hshr mid
    ((mid ++ (tagOpen tag ++ (s ++ (tagClose tag ++ post)))).length)
    ha2 hr2 le_rfl]
  rw [scanF_no_match post post.length hno]
  simp [List.append_assoc]

/-- C2, amended, witness: concrete instance with two occurrences of
`<Tooltip>Ab</Tooltip>`; both are rewritten. -/
theorem C2_scalar_replaces_all_witness :
    replace_translated_content [⟨"Tooltip".data, "Ab".data, "Cd".data, none⟩]
        ("x".data ++ tagRepl "Tooltip".data "Ab".data ++ "y".data ++
          tagRepl "Tooltip".data "Ab".data ++ "z".data) =
      "x".data ++ tagRepl "Tooltip".data "Cd".data ++ "y".data ++
        tagRepl "Tooltip".data "Cd".data ++ "z".data :=
  C2_scalar_replaces_all "Tooltip".data "Ab".data "Cd".data
    "x".data "y".data "z".data (by decide) (by decide)

/-- C3: for content containing exactly one (whitespace-free) Value-shape
fragment with anchor `anchorOf name v` and translation `t`, the
replacement engine yields content identical to the original except that
the anchor's inner value text is replaced by `t`; every byte outside
the anchor (`pre` and `post`) is unchanged. -/
theorem C3_value_round_trip (pre name v t post : List Char)
    (hws : startsWithWs v = false)
    (h1 : occCount vOpen (anchorOf name v) = 1)
    (h2 : occCount (anchorOf name v) (pre ++ anchorOf name v ++ post) = 1) :
    replace_translated_content
        [⟨"value".data, v, t, some (anchorOf name v)⟩]
        (pre ++ anchorOf name v ++ post) =
      pre ++ anchorTr name t ++ post := by
  simp only [replace_translated_content, List.map_cons, List.map_nil,
    buildRepl_value v t (anchorOf name v) (anchorOf_ne_nil name v),
    List.foldl_cons, List.foldl_nil, applyRepl]
  rw [subTag_anchor name v t hws h1]
  exact subLit_unique (anchorTr name t) pre post (anchorOf_ne_nil name v) h2

/-- C3, witness: the spec's example scenario,
`<data name="x"><value>Stone</value></data>` with translation `石头`. -/
theorem C3_value_round_trip_witness :
    replace_translated_content
        [⟨"value".data, "Stone".data, "石头".data,
          some (anchorOf "x".data "Stone".data)⟩]
        ("A".data ++ anchorOf "x".data "Stone".data ++ "B".data) =
      "A".data ++ anchorTr "x".data "石头".data ++ "B".data :=
  C3_value_round_trip "A".data "x".data "Stone".data "石头".data "B".data
    (by decide) (by decide) (by decide)

/-- C4: for content with two distinct (whitespace-free) Value-shape
anchors having the same inner value text `v` but different outer names
`n1 ≠ n2`, applying the single translation result for the first anchor
rewrites only that anchor; the second anchor, including its identical
inner text, is left byte-for-byte unchanged. -/
theorem C4_duplicate_text_safety (pre mid post n1 n2 v t : List Char)
    (_hn : n1 ≠ n2) (hws : startsWithWs v = false)
    (h1 : occCount vOpen (anchorOf n1 v) = 1)
    (h2 : occCount (anchorOf n1 v)
        (pre ++ anchorOf n1 v ++ (mid ++ anchorOf n2 v ++ post)) = 1) :
    replace_translated_content
        [⟨"value".data, v, t, some (anchorOf n1 v)⟩]
        (pre ++ anchorOf n1 v ++ (mid ++ anchorOf n2 v ++ post)) =
      pre ++ anchorTr n1 t ++ (mid ++ anchorOf n2 v ++ post) := by
  simp only [replace_translated_content, List.map_cons, List.map_nil,
    buildRepl_value v t (anchorOf n1 v) (anchorOf_ne_nil n1 v),
    List.foldl_cons, List.foldl_nil, applyRepl]
  rw [subTag_anchor n1 v t hws h1]
  exact subLit_unique (anchorTr n1 t) pre
    (mid ++ anchorOf n2 v ++ post) (anchorOf_ne_nil n1 v) h2

/-- C4, witness: two anchors with identical inner text `Stone` and
names `x` and `y`; only the `x` anchor is rewritten. -/
theorem C4_duplicate_text_safety_witness :
    replace_translated_content
        [⟨"value".data, "Stone".data, "石头".data,
          some (anchorOf "x".data "Stone".data)⟩]
        ([] ++ anchorOf "x".data "Stone".data ++
          ([] ++ anchorOf "y".data "Stone".data ++ [])) =
      [] ++ anchorTr "x".data "石头".data ++
        ([] ++ anchorOf "y".data "Stone".data ++ []) :=
  C4_duplicate_text_safety [] [] [] "x".data "y".data "Stone".data
    "石头".data (by decide) (by decide) (by decide) (by decide)

/-- C1, counterexample: when one fragment of a shard fails, the shard
does NOT keep the other fragments' translations.  The `try` of
`batch_translate` (source lines 226-234) wraps the whole loop, so the
`except` branch discards the first fragment's successful translation
`Tt` and degrades BOTH fragments to their source text, contradicting
the claim that only the failing fragment degrades. -/
theorem C1_counterexample :
    batch_translate
        (fun _ text => if text = "Bb".data then none else some "Tt".data)
        [⟨"Tooltip".data, "Aa".data, none⟩,
          ⟨"Tooltip".data, "Bb".data, none⟩] =
      [⟨"Tooltip".data, "Aa".data, "Aa".data, none⟩,
        ⟨"Tooltip".data, "Bb".data, "Bb".data, none⟩] ∧
    ([⟨"Tooltip".data, "Aa".data, "Aa".data, none⟩,
        ⟨"Tooltip".data, "Bb".data, "Bb".data, none⟩] : List TransItem) ≠
      [⟨"Tooltip".data, "Aa".data, "Tt".data, none⟩,
        ⟨"Tooltip".data, "Bb".data, "Bb".data, none⟩] := by
  constructor
  · decide
  · decide

/-- C1, amended: if any fragment's translate call fails after
exhausting retries, the shard substitutes the original `sourceText` as
the translation for EVERY fragment of that shard (the successful
siblings' translations are discarded along with the failing one). -/
theorem C1_batch_degrades_whole_shard
    (trf : List Char → List Char → Option (List Char)) (batch : List Frag)
    (h : ∃ f ∈ batch, trf f.tag f.text = none) :
    batch_translate trf batch =
      batch.map (fun f => ⟨f.tag, f.text, f.text, f.ctx⟩) := by
  have hnone : translateAllFrags trf batch = none := by
    induction batch with
    | nil => simp at h
    | cons f rest ih =>
      obtain ⟨g, hg, hgn⟩ := h
      rcases List.mem_cons.mp hg with rfl | hgr
      · simp [translateAllFrags, hgn]
      · cases htf : trf f.tag f.text with
        | none => simp [translateAllFrags, htf]
        | some t => simp [translateAllFrags, htf, ih ⟨g, hgr, hgn⟩]
  unfold batch_translate
  rw [hnone]

/-- C1, amended, witness: concrete two-fragment shard whose second
fragment fails; both results degrade to source text. -/
theorem C1_batch_degrades_whole_shard_witness :
    batch_translate
        (fun _ text => if text = "Bb".data then none else some "Tt".data)
        [⟨"Tooltip".data, "Aa".data, none⟩,
          ⟨"Tooltip".data, "Bb".data, none⟩] =
      ([⟨"Tooltip".data, "Aa".data, none⟩,
          ⟨"Tooltip".data, "Bb".data, none⟩] : List Frag).map
        (fun f => ⟨f.tag, f.text, f.text, f.ctx⟩) :=
  C1_batch_degrades_whole_shard _ _ (by decide)

/-- C5: cache short-circuit of `translate_text` (source lines 77-80,
113-115).  (a) Whenever the cache already contains the key
`tag ++ ":" ++ text`, `translate_text` returns the cached value
immediately, with zero network calls and an unchanged cache.
(b) After any successful call, every later call with the resulting
cache — under ANY network behaviour — returns that first result with
zero network calls, so the network is never contacted again for the
same (category, sourceText) pair. -/
theorem C5_cache_short_circuit (tag text : List Char) :
    (∀ cache v net, lookupCache (cacheKey tag text) cache = some v →
        translate_text net cache tag text = (some v, cache, 0, 0)) ∧
    (∀ net cache t cache' c sl net',
        translate_text net cache tag text = (some t, cache', c, sl) →
        translate_text net' cache' tag text = (some t, cache', 0, 0)) := by
  constructor
  · intro cache v net h
    unfold translate_text
    rw [h]
  · intro net cache t cache' c sl net' h
    unfold translate_text at h ⊢
    cases hl : lookupCache (cacheKey tag text) cache with
    | some v =>
      rw [hl] at h
      simp only [Prod.mk.injEq, Option.some.injEq] at h
      obtain ⟨h1, h2, -, -⟩ := h
      subst h1
      subst h2
      rw [hl]
    | none =>
      rw [hl] at h
      rcases hta : tryAttempts net 0 MAX_RETRIES with ⟨o, cc, sl2⟩
      rw [hta] at h
      cases o with
      | none => simp at h
      | some tr =>
        simp only [Prod.mk.injEq, Option.some.injEq] at h
        obtain ⟨h1, h2, -, -⟩ := h
        subst h1
        subst h2
        simp [lookupCache]

/-- C5, witness: a concrete cache hit returns the cached value with no
network call. -/
theorem C5_cache_short_circuit_witness :
    translate_text (fun _ => NetOutcome.fail)
        [("value:Stone".data, "石头".data)] "value".data "Stone".data =
      (some "石头".data, [("value:Stone".data, "石头".data)], 0, 0) :=
  (C5_cache_short_circuit "value".data "Stone".data).1
    [("value:Stone".data, "石头".data)] "石头".data
    (fun _ => NetOutcome.fail) (by decide)

theorem tryAttempts_fail (net : Nat → NetOutcome) :
    ∀ (rem i : Nat), (∀ j, i ≤ j → j < i + rem → net j = NetOutcome.fail) →
      tryAttempts net i rem = (none, rem, rem) := by
  intro rem
  induction rem with
  | zero => intro i _; rfl
  | succ rem ih =>
    intro i h
    have h0 : net i = NetOutcome.fail := h i le_rfl (by omega)
    simp only [tryAttempts, h0]
    rw [ih (i + 1) (fun j hj1 hj2 => h j (by omega) (by omega))]

theorem tryAttempts_calls_le (net : Nat → NetOutcome) :
    ∀ (rem i : Nat), (tryAttempts net i rem).2.1 ≤ rem := by
  intro rem
  induction rem with
  | zero => intro i; simp [tryAttempts]
  | succ rem ih =>
    intro i
    cases hn : net i with
    | fail =>
      simp only [tryAttempts, hn]
      have := ih (i + 1)
      omega
    | ok t =>
      by_cases he : clean_translation (stripChars t) = []
      · simp only [tryAttempts, hn, if_pos he]
        have := ih (i + 1)
        omega
      · simp only [tryAttempts, hn, if_neg he]
        omega

/-- C7: when every network attempt fails, the client performs exactly
`MAX_RETRIES` attempts, sleeping the fixed backoff interval after each
failed attempt (in particular between consecutive attempts), and then
fails with `TranslationError` (result `none`, cache unchanged); and no
run of `translate_text` ever makes more than `MAX_RETRIES` network
calls. -/
theorem C7_retry_exhaustion (net : Nat → NetOutcome)
    (cache : List (List Char × List Char)) (tag text : List Char)
    (hmiss : lookupCache (cacheKey tag text) cache = none)
    (hfail : ∀ i, i < MAX_RETRIES → net i = NetOutcome.fail) :
    translate_text net cache tag text =
      (none, cache, MAX_RETRIES, MAX_RETRIES) ∧
    (∀ (net2 : Nat → NetOutcome) cache2,
        (translate_text net2 cache2 tag text).2.2.1 ≤ MAX_RETRIES) := by
  constructor
  · unfold translate_text
    rw [hmiss]
    rw [tryAttempts_fail net MAX_RETRIES 0 (fun j _ h2 => hfail j (by omega))]
  · intro net2 cache2
    cases hl : lookupCache (cacheKey tag text) cache2 with
    | some v => simp [translate_text, hl]
    | none =>
      rcases hta : tryAttempts net2 0 MAX_RETRIES with ⟨o, cc, sl2⟩
      have hle := tryAttempts_calls_le net2 MAX_RETRIES 0
      rw [hta] at hle
      cases o with
      | some tr =>
        simp only [translate_text, hl, hta]
        simpa using hle
      | none =>
        simp only [translate_text, hl, hta]
        simpa using hle

/-- C7, witness: a network that always fails on an empty cache yields
`none` after exactly `MAX_RETRIES` calls and sleeps. -/
theorem C7_retry_exhaustion_witness :
    translate_text (fun _ => NetOutcome.fail) [] "value".data "Stone".data =
      (none, [], MAX_RETRIES, MAX_RETRIES) :=
  (C7_retry_exhaustion (fun _ => NetOutcome.fail) [] "value".data
    "Stone".data (by decide) (fun _ _ => rfl)).1

theorem tryAttempts_ne_nil (net : Nat → NetOutcome) :
    ∀ (rem i : Nat) (tr : List Char) (c sl : Nat),
      tryAttempts net i rem = (some tr, c, sl) → tr ≠ [] := by
  intro rem
  induction rem with
  | zero =>
    intro i tr c sl h
    simp [tryAttempts] at h
  | succ rem ih =>
    intro i tr c sl h
    cases hn : net i with
    | fail =>
      simp only [tryAttempts, hn] at h
      rcases hta : tryAttempts net (i + 1) rem with ⟨o, cc, sl3⟩
      rw [hta] at h
      simp only [Prod.mk.injEq] at h
      obtain ⟨h1, -, -⟩ := h
      subst h1
      exact ih (i + 1) tr cc sl3 hta
    | ok t =>
      by_cases he : clean_translation (stripChars t) = []
      · simp only [tryAttempts, hn, if_pos he] at h
        rcases hta : tryAttempts net (i + 1) rem with ⟨o, cc, sl3⟩
        rw [hta] at h
        simp only [Prod.mk.injEq] at h
        obtain ⟨h1, -, -⟩ := h
        subst h1
        exact ih (i + 1) tr cc sl3 hta
      · simp only [tryAttempts, hn, if_neg he] at h
        simp only [Prod.mk.injEq, Option.some.injEq] at h
        obtain ⟨h1, -, -⟩ := h
        rw [← h1]
        exact he

theorem lookupCache_mem {key v : List Char} :
    ∀ {cache : List (List Char × List Char)},
      lookupCache key cache = some v → (key, v) ∈ cache := by
  intro cache
  induction cache with
  | nil => intro h; simp [lookupCache] at h
  | cons kv rest ih =>
    intro h
    rcases kv with ⟨k, w⟩
    by_cases hk : k = key
    · subst hk
      have h' : w = v := by simpa [lookupCache] using h
      subst h'
      exact List.mem_cons_self _ _
    · simp only [lookupCache, if_neg hk] at h
      exact List.mem_cons_of_mem _ (ih h)

/-- C8: a structurally successful response whose sanitized text is
empty is treated as a transient failure — the loop proceeds to the next
attempt exactly as for a network failure, with one more call and one
more sleep (source lines 109-111, 117-119); consequently a successful
`translate_text` result is never the empty string, and the
all-values-non-empty cache invariant is preserved.  (The
absent-`output.text` case is `NetOutcome.fail`, also retried.) -/
theorem C8_empty_result_retries :
    (∀ (net : Nat → NetOutcome) (i rem : Nat) (e : List Char),
        net i = NetOutcome.ok e → clean_translation (stripChars e) = [] →
        tryAttempts net i (rem + 1) =
          ((tryAttempts net (i + 1) rem).1,
            (tryAttempts net (i + 1) rem).2.1 + 1,
            (tryAttempts net (i + 1) rem).2.2 + 1)) ∧
    (∀ (net : Nat → NetOutcome) cache tag text t cache' c sl,
        (∀ kv ∈ cache, kv.2 ≠ ([] : List Char)) →
        translate_text net cache tag text = (some t, cache', c, sl) →
        t ≠ [] ∧ ∀ kv ∈ cache', kv.2 ≠ ([] : List Char)) := by
  constructor
  · intro net i rem e hnet he
    simp only [tryAttempts, hnet, if_pos he]
  · intro net cache tag text t cache' c sl hcache h
    unfold translate_text at h
    cases hl : lookupCache (cacheKey tag text) cache with
    | some v =>
      rw [hl] at h
      simp only [Prod.mk.injEq, Option.some.injEq] at h
      obtain ⟨h1, h2, -, -⟩ := h
      subst h1
      subst h2
      refine ⟨?_, hcache⟩
      exact hcache _ (lookupCache_mem hl)
    | none =>
      rw [hl] at h
      rcases hta : tryAttempts net 0 MAX_RETRIES with ⟨o, cc, sl2⟩
      rw [hta] at h
      cases o with
      | none => simp at h
      | some tr =>
        simp only [Prod.mk.injEq, Option.some.injEq] at h
        obtain ⟨h1, h2, -, -⟩ := h
        have htr : tr ≠ [] := tryAttempts_ne_nil net MAX_RETRIES 0 tr cc sl2 hta
        subst h1
        refine ⟨htr, ?_⟩
        intro kv hkv
        rw [← h2] at hkv
        rcases List.mem_cons.mp hkv with rfl | hkv2
        · exact htr
        · exact hcache kv hkv2

/-- C8, witness: a concrete successful run returns a non-empty
translation and a cache with only non-empty values. -/
theorem C8_empty_result_retries_witness :
    "你好".data ≠ ([] : List Char) :=
  (C8_empty_result_retries.2 (fun _ => NetOutcome.ok "你好".data) []
    "value".data "Stone".data "你好".data
    [("value:Stone".data, "你好".data)] 1 0
    (by decide) (by decide)).1

theorem count_flatten_filter {α : Type} [BEq α] [LawfulBEq α]
    (g : α → Nat) (k : Nat) (e : List α) (a : α) (hga : g a < k) :
    ((List.range k).map
      (fun i => e.filter (fun p => g p == i))).flatten.count a =
      e.count a := by
  have hcf : ∀ i : Nat, ((e.filter (fun p => g p == i)).count a) =
      if g a = i then e.count a else 0 := by
    intro i
    by_cases hp : g a = i
    · rw [if_pos hp]
      exact List.count_filter (by simp [hp])
    · rw [if_neg hp]
      rw [List.count_eq_zero]
      intro hmem2
      have h2 := (List.mem_filter.mp hmem2).2
      simp only [beq_iff_eq] at h2
      exact hp h2
  have hsum : ∀ (n m c : Nat), m < n →
      ((List.range n).map (fun i => if m = i then c else 0)).sum = c := by
    intro n
    induction n with
    | zero => intro m c h; omega
    | succ n ih =>
      intro m c h
      rw [List.range_succ, List.map_append, List.sum_append]
      by_cases hm : m = n
      · subst hm
        have hz : ((List.range m).map
            (fun i => if m = i then c else 0)).sum = 0 := by
          apply List.sum_eq_zero
          intro x hx
          obtain ⟨i, hi, rfl⟩ := List.mem_map.mp hx
          have := List.mem_range.mp hi
          rw [if_neg (by omega)]
        rw [hz]
        simp
      · rw [ih m c (by omega)]
        simp [hm]
  rw [List.count_flatten]
  have hmap : List.map (List.count a)
      (List.map (fun i => e.filter (fun p => g p == i)) (List.range k)) =
      List.map (fun i => if g a = i then e.count a else 0)
        (List.range k) := by
    rw [List.map_map]
    apply List.map_congr_left
    intro i _
    simpa using hcf i
  rw [hmap]
  exact hsum k (g a) _ hga

/-- C6: the round-robin sharding of `process_file` (source line 274).
(a) The fragment at index `j` lands in shard `j % k`.  (b) The
concatenation of all `k` shards is a permutation of the original
fragment list — every fragment appears exactly once, none duplicated,
none lost.  (c) Each shard is a sublist of the original list, i.e. it
preserves the fragments' original relative order. -/
theorem C6_shard_partition (l : List Frag) (k : Nat) (hk : 1 ≤ k) :
    (∀ j (hj : j < l.length), l.get ⟨j, hj⟩ ∈ shard l (j % k) k) ∧
    (makeBatches l k).flatten.Perm l ∧
    (∀ i, i < k → (shard l i k).Sublist l) := by
  refine ⟨?_, ?_, ?_⟩
  · intro j hj
    unfold shard
    apply List.mem_map.mpr
    refine ⟨(j, l.get ⟨j, hj⟩), ?_, rfl⟩
    apply List.mem_filter.mpr
    constructor
    · apply List.mem_enum_iff_getElem?.mpr
      simp only [List.get_eq_getElem]
      exact List.getElem?_eq_getElem (by simpa using hj)
    · simp
  · have hperm : ((List.range k).map
        (fun i => l.enum.filter (fun p => p.1 % k == i))).flatten.Perm
        l.enum := by
      rw [List.perm_iff_count]
      intro a
      exact @count_flatten_filter (Nat × Frag) instBEqOfDecidableEq
        instLawfulBEq (fun p => p.1 % k) k l.enum a
        (Nat.mod_lt _ (by omega))
    have hmb : makeBatches l k =
        ((List.range k).map
          (fun i => l.enum.filter (fun p => p.1 % k == i))).map
            (List.map Prod.snd) := by
      unfold makeBatches shard
      rw [List.map_map]
      rfl
    rw [hmb, ← List.map_flatten]
    have := hperm.map Prod.snd
    rw [List.enum_map_snd] at this
    exact this
  · intro i _
    have hs : (List.filter (fun p => p.1 % k == i) l.enum).Sublist l.enum :=
      List.filter_sublist _
    have hms := hs.map Prod.snd
    rw [List.enum_map_snd] at hms
    exact hms

/-- C6, witness: three fragments, two clients: shards `[f0, f2]` and
`[f1]`, whose concatenation is a permutation of the input. -/
theorem C6_shard_partition_witness :
    (makeBatches [⟨"a".data, "aa".data, none⟩, ⟨"b".data, "bb".data, none⟩,
        ⟨"c".data, "cc".data, none⟩] 2).flatten.Perm
      [⟨"a".data, "aa".data, none⟩, ⟨"b".data, "bb".data, none⟩,
        ⟨"c".data, "cc".data, none⟩] :=
  (C6_shard_partition [⟨"a".data, "aa".data, none⟩,
    ⟨"b".data, "bb".data, none⟩, ⟨"c".data, "cc".data, none⟩] 2
    (by omega)).2.1

/-- C9: every fragment returned by extraction has a `sourceText` that
contains none of the reserved `SKIP_KEYWORDS`, contains no
target-language (Chinese) script characters, and has length at least 2
(hence is non-empty); equivalently, any matched fragment violating one
of these conditions has been dropped by the filter of source line 182. -/
theorem C9_filter_invariants (content : List Char) (f : Frag)
    (hf : f ∈ parse_translatable_content content) :
    (∀ kw ∈ SKIP_KEYWORDS, containsSub kw f.text = false) ∧
    is_chinese f.text = false ∧ 2 ≤ f.text.length ∧ f.text ≠ [] := by
  have hk : keepFrag f = true := (List.mem_filter.mp hf).2
  unfold keepFrag at hk
  rw [Bool.not_eq_true'] at hk
  simp only [Bool.or_eq_false_iff] at hk
  obtain ⟨⟨h1, h2⟩, h3⟩ := hk
  simp only [List.any_eq_false] at h1
  simp only [decide_eq_false_iff_not, Nat.not_lt] at h3
  refine ⟨fun kw hkw => Bool.not_eq_true _ ▸ h1 kw hkw, h2, h3, ?_⟩
  intro hnil
  rw [hnil] at h3
  simp at h3

/-- C9, witness: the fragment `Hello` extracted from
`<Tooltip>Hello</Tooltip>` satisfies all three invariants. -/
theorem C9_filter_invariants_witness :
    (∀ kw ∈ SKIP_KEYWORDS, containsSub kw "Hello".data = false) ∧
    is_chinese "Hello".data = false ∧ 2 ≤ "Hello".data.length ∧
    "Hello".data ≠ [] :=
  C9_filter_invariants "<Tooltip>Hello</Tooltip>".data
    ⟨"Tooltip".data, "Hello".data, none⟩ (by decide)

/-!  ## Decomposition lemmas for the extraction matchers -/

theorem ciEq_length : ∀ {a b : List Char}, ciEq a b = true →
    a.length = b.length := by
  intro a
  induction a with
  | nil =>
    intro b h
    cases b with
    | nil => rfl
    | cons d ds => simp [ciEq] at h
  | cons c cs ih =>
    intro b h
    cases b with
    | nil => simp [ciEq] at h
    | cons d ds =>
      simp only [ciEq, Bool.and_eq_true] at h
      simp [ih h.2]

theorem dropLitCI_spec : ∀ {lit s w r : List Char},
    dropLitCI lit s = some (w, r) → s = w ++ r ∧ ciEq w lit = true := by
  intro lit
  induction lit with
  | nil =>
    intro s w r h
    simp only [dropLitCI, Option.some.injEq, Prod.mk.injEq] at h
    obtain ⟨rfl, rfl⟩ := h
    exact ⟨rfl, rfl⟩
  | cons l ls ih =>
    intro s w r h
    cases s with
    | nil => simp [dropLitCI] at h
    | cons c cs =>
      by_cases hc : charCIEq c l = true
      · simp only [dropLitCI, hc, if_true] at h
        cases hd : dropLitCI ls cs with
        | none => rw [hd] at h; simp at h
        | some p =>
          rcases p with ⟨w2, r2⟩
          rw [hd] at h
          simp only [Option.some.injEq, Prod.mk.injEq] at h
          obtain ⟨rfl, rfl⟩ := h
          obtain ⟨hs, hci⟩ := ih hd
          constructor
          · rw [List.cons_append, ← hs]
          · simp [ciEq, hc, hci]
      · simp [dropLitCI, hc] at h

theorem altCI_spec : ∀ {lits : List (List Char)} {s w r : List Char},
    altCI lits s = some (w, r) →
      ∃ l ∈ lits, ciEq w l = true ∧ s = w ++ r := by
  intro lits
  induction lits with
  | nil => intro s w r h; simp [altCI] at h
  | cons l ls ih =>
    intro s w r h
    unfold altCI at h
    cases h1 : dropLitCI l s with
    | none =>
      rw [h1] at h
      obtain ⟨l2, hl2, hci, hs⟩ := ih h
      exact ⟨l2, List.mem_cons_of_mem _ hl2, hci, hs⟩
    | some p =>
      rcases p with ⟨w2, r2⟩
      rw [h1] at h
      simp only [Option.some.injEq, Prod.mk.injEq] at h
      obtain ⟨rfl, rfl⟩ := h
      obtain ⟨hs, hci⟩ := dropLitCI_spec h1
      exact ⟨l, List.mem_cons_self _ _, hci, hs⟩

theorem lazyUntil_spec {tc : List Char → Option (List Char × List Char)}
    {P : List Char → Prop}
    (htc : ∀ r cl rest, tc r = some (cl, rest) → r = cl ++ rest ∧ P cl) :
    ∀ {s cap cl rest : List Char},
      lazyUntil tc s = some (cap, cl, rest) →
        (s = cap ++ cl ++ rest) ∧ P cl := by
  intro s
  induction s with
  | nil =>
    intro cap cl rest h
    unfold lazyUntil at h
    cases h1 : tc [] with
    | none => rw [h1] at h; simp at h
    | some p =>
      rcases p with ⟨cl2, rest2⟩
      rw [h1] at h
      simp only [Option.some.injEq, Prod.mk.injEq] at h
      obtain ⟨hcap, hcl, hrest⟩ := h
      obtain ⟨h0, hP⟩ := htc [] cl2 rest2 h1
      refine ⟨?_, hcl ▸ hP⟩
      rw [← hcap, ← hcl, ← hrest]
      simpa using h0
  | cons c s' ih =>
    intro cap cl rest h
    unfold lazyUntil at h
    cases h1 : tc (c :: s') with
    | some p =>
      rcases p with ⟨cl2, rest2⟩
      rw [h1] at h
      simp only [Option.some.injEq, Prod.mk.injEq] at h
      obtain ⟨hcap, hcl, hrest⟩ := h
      obtain ⟨h0, hP⟩ := htc _ cl2 rest2 h1
      refine ⟨?_, hcl ▸ hP⟩
      rw [← hcap, ← hcl, ← hrest]
      simpa using h0
    | none =>
      rw [h1] at h
      cases h2 : lazyUntil tc s' with
      | none => rw [h2] at h; simp at h
      | some p =>
        rcases p with ⟨cap2, cl2, rest2⟩
        rw [h2] at h
        simp only [Option.some.injEq, Prod.mk.injEq] at h
        obtain ⟨hcap, hcl, hrest⟩ := h
        obtain ⟨h0, hP⟩ := ih h2
        refine ⟨?_, hcl ▸ hP⟩
        rw [← hcap, ← hcl, ← hrest]
        simp [h0]

theorem closeFull_spec {r cl rest : List Char}
    (h : closeFull r = some (cl, rest)) :
    r = cl ++ rest ∧ ∃ w4 c6 t2, cl = w4 ++ c6 ++ t2 ∧
      (∀ c ∈ w4, isSpace c = true) ∧ ciEq c6 "</value>".data = true := by
  unfold closeFull at h
  cases h1 : dropLitCI "</value>".data (r.dropWhile isSpace) with
  | none => rw [h1] at h; simp at h
  | some p =>
    rcases p with ⟨c6, r2⟩
    rw [h1] at h
    dsimp only at h
    cases h2 : dropLitCI "</data>".data (r2.dropWhile isSpace) with
    | none => rw [h2] at h; simp at h
    | some p2 =>
      rcases p2 with ⟨c7, rest2⟩
      rw [h2] at h
      simp only [Option.some.injEq, Prod.mk.injEq] at h
      obtain ⟨hcl, hrest⟩ := h
      obtain ⟨hs1, hci1⟩ := dropLitCI_spec h1
      obtain ⟨hs2, hci2⟩ := dropLitCI_spec h2
      constructor
      · rw [← hcl, ← hrest]
        calc r = r.takeWhile isSpace ++ r.dropWhile isSpace :=
              (List.takeWhile_append_dropWhile _ _).symm
          _ = r.takeWhile isSpace ++ (c6 ++ r2) := by rw [hs1]
          _ = r.takeWhile isSpace ++ (c6 ++
              (r2.takeWhile isSpace ++ r2.dropWhile isSpace)) := by
              rw [List.takeWhile_append_dropWhile]
          _ = r.takeWhile isSpace ++ (c6 ++
              (r2.takeWhile isSpace ++ (c7 ++ rest2))) := by rw [hs2]
          _ = r.takeWhile isSpace ++ c6 ++ r2.takeWhile isSpace ++ c7 ++
              rest2 := by simp [List.append_assoc]
      · refine ⟨r.takeWhile isSpace, c6, r2.takeWhile isSpace ++ c7, ?_,
          fun c hc => List.mem_takeWhile_imp hc, hci1⟩
        rw [← hcl]
        simp [List.append_assoc]

theorem closeSimple_spec {tagTxt r cl rest : List Char}
    (h : closeSimple tagTxt r = some (cl, rest)) : r = cl ++ rest := by
  unfold closeSimple at h
  cases h1 : dropLitCI ("</".data ++ tagTxt ++ ">".data)
      (r.dropWhile isSpace) with
  | none => rw [h1] at h; simp at h
  | some p =>
    rcases p with ⟨c, rest2⟩
    rw [h1] at h
    simp only [Option.some.injEq, Prod.mk.injEq] at h
    obtain ⟨hcl, hrest⟩ := h
    obtain ⟨hs1, -⟩ := dropLitCI_spec h1
    rw [← hcl, ← hrest]
    calc r = r.takeWhile isSpace ++ r.dropWhile isSpace :=
          (List.takeWhile_append_dropWhile _ _).symm
      _ = r.takeWhile isSpace ++ (c ++ rest2) := by rw [hs1]
      _ = r.takeWhile isSpace ++ c ++ rest2 := by simp [List.append_assoc]

theorem dropWhile_append_all {p : Char → Bool} :
    ∀ {w t : List Char}, (∀ c ∈ w, p c = true) →
      (w ++ t).dropWhile p = t.dropWhile p := by
  intro w
  induction w with
  | nil => intro t _; rfl
  | cons c w' ih =>
    intro t h
    have hc : p c = true := h c (List.mem_cons_self _ _)
    simp only [List.cons_append, List.dropWhile_cons, hc, if_true]
    exact ih (fun d hd => h d (List.mem_cons_of_mem _ hd))

theorem dropWhile_append_pos {p : Char → Bool} :
    ∀ {s t : List Char}, s.dropWhile p ≠ [] →
      (s ++ t).dropWhile p = s.dropWhile p ++ t := by
  intro s
  induction s with
  | nil => intro t h; simp [List.dropWhile] at h
  | cons c s' ih =>
    intro t h
    by_cases hc : p c = true
    · simp only [List.dropWhile_cons, hc, if_true] at h
      simp only [List.cons_append, List.dropWhile_cons, hc, if_true]
      exact ih h
    · rw [Bool.not_eq_true] at hc
      simp only [List.cons_append, List.dropWhile_cons, hc]
      simp

/-- Stripping is insensitive to all-whitespace padding on both sides. -/
theorem stripChars_ws_wrap {w raw w2 : List Char}
    (hw : ∀ c ∈ w, isSpace c = true) (hw2 : ∀ c ∈ w2, isSpace c = true) :
    stripChars (w ++ raw ++ w2) = stripChars raw := by
  unfold stripChars
  rw [List.append_assoc, dropWhile_append_all hw]
  by_cases hd : raw.dropWhile isSpace = []
  · have hraw : ∀ c ∈ raw, isSpace c = true :=
      List.dropWhile_eq_nil_iff.mp hd
    have hall : ∀ c ∈ raw ++ w2, isSpace c = true := by
      intro c hc
      rcases List.mem_append.mp hc with h | h
      · exact hraw c h
      · exact hw2 c h
    rw [List.dropWhile_eq_nil_iff.mpr hall, hd]
  · rw [dropWhile_append_pos hd, List.reverse_append,
      dropWhile_append_all (fun c hc => hw2 c (List.mem_reverse.mp hc))]

theorem matchFull_spec {s full raw rest : List Char}
    (h : matchFull s = some (full, raw, rest)) :
    s = full ++ rest ∧
    ∃ u c5 w3 w4 c6 t2,
      full = u ++ (c5 ++ (w3 ++ (raw ++ (w4 ++ (c6 ++ t2))))) ∧
      ciEq c5 "<value>".data = true ∧ ciEq c6 "</value>".data = true ∧
      (∀ c ∈ w3, isSpace c = true) ∧ (∀ c ∈ w4, isSpace c = true) := by
  unfold matchFull at h
  cases h1 : dropLitCI "<data".data s with
  | none => rw [h1] at h; simp at h
  | some p1 =>
    rcases p1 with ⟨c1, s1⟩
    rw [h1] at h
    dsimp only at h
    by_cases hw1 : s1.takeWhile isSpace = []
    · rw [if_pos hw1] at h; simp at h
    · rw [if_neg hw1] at h
      cases h2 : dropLitCI "name=\"".data (s1.dropWhile isSpace) with
      | none => rw [h2] at h; simp at h
      | some p2 =>
        rcases p2 with ⟨c2, s3⟩
        rw [h2] at h
        dsimp only at h
        by_cases hn1 : s3.takeWhile (fun c => c != '"') = []
        · rw [if_pos hn1] at h; simp at h
        · rw [if_neg hn1] at h
          cases h3 : dropLit "\"".data (s3.dropWhile (fun c => c != '"')) with
          | none => rw [h3] at h; simp at h
          | some s5 =>
            rw [h3] at h
            dsimp only at h
            cases h4 : dropLit ">".data (s5.dropWhile (fun c => c != '>')) with
            | none => rw [h4] at h; simp at h
            | some s7 =>
              rw [h4] at h
              dsimp only at h
              cases h5 : dropLitCI "<value>".data (s7.dropWhile isSpace) with
              | none => rw [h5] at h; simp at h
              | some p5 =>
                rcases p5 with ⟨c5, s9⟩
                rw [h5] at h
                dsimp only at h
                cases h6 : lazyUntil closeFull (s9.dropWhile isSpace) with
                | none => rw [h6] at h; simp at h
                | some p6 =>
                  rcases p6 with ⟨raw2, cl, rest2⟩
                  rw [h6] at h
                  simp only [Option.some.injEq, Prod.mk.injEq] at h
                  obtain ⟨hfull, hraw, hrest⟩ := h
                  have e1 : s = c1 ++ s1 := (dropLitCI_spec h1).1
                  have e3 : s1.dropWhile isSpace = c2 ++ s3 :=
                    (dropLitCI_spec h2).1
                  have e5 : s3.dropWhile (fun c => c != '"') =
                      "\"".data ++ s5 := dropLit_eq_some.mp h3
                  have e7 : s5.dropWhile (fun c => c != '>') =
                      ">".data ++ s7 := dropLit_eq_some.mp h4
                  have e9 : s7.dropWhile isSpace = c5 ++ s9 :=
                    (dropLitCI_spec h5).1
                  have hci5 := (dropLitCI_spec h5).2
                  obtain ⟨e11, w4, c6, t2, hcl, hws4, hci6⟩ :=
                    lazyUntil_spec (fun r cl2 rest3 hh => closeFull_spec hh) h6
                  constructor
                  · rw [← hfull, ← hrest]
                    calc s = c1 ++ s1 := e1
                      _ = c1 ++ (s1.takeWhile isSpace ++
                          s1.dropWhile isSpace) := by
                          rw [List.takeWhile_append_dropWhile]
                      _ = c1 ++ (s1.takeWhile isSpace ++ (c2 ++ s3)) := by
                          rw [e3]
                      _ = c1 ++ (s1.takeWhile isSpace ++ (c2 ++
                          (s3.takeWhile (fun c => c != '"') ++
                           s3.dropWhile (fun c => c != '"')))) := by
                          rw [List.takeWhile_append_dropWhile]
                      _ = c1 ++ (s1.takeWhile isSpace ++ (c2 ++
                          (s3.takeWhile (fun c => c != '"') ++
                           ("\"".data ++ s5)))) := by rw [e5]
                      _ = c1 ++ (s1.takeWhile isSpace ++ (c2 ++
                          (s3.takeWhile (fun c => c != '"') ++
                           ("\"".data ++ (s5.takeWhile (fun c => c != '>') ++
                            s5.dropWhile (fun c => c != '>')))))) := by
                          rw [List.takeWhile_append_dropWhile]
                      _ = c1 ++ (s1.takeWhile isSpace ++ (c2 ++
                          (s3.takeWhile (fun c => c != '"') ++
                           ("\"".data ++ (s5.takeWhile (fun c => c != '>') ++
                            (">".data ++ s7)))))) := by rw [e7]
                      _ = c1 ++ (s1.takeWhile isSpace ++ (c2 ++
                          (s3.takeWhile (fun c => c != '"') ++
                           ("\"".data ++ (s5.takeWhile (fun c => c != '>') ++
                            (">".data ++ (s7.takeWhile isSpace ++
                             s7.dropWhile isSpace))))))) := by
                          rw [List.takeWhile_append_dropWhile]
                      _ = c1 ++ (s1.takeWhile isSpace ++ (c2 ++
                          (s3.takeWhile (fun c => c != '"') ++
                           ("\"".data ++ (s5.takeWhile (fun c => c != '>') ++
                            (">".data ++ (s7.takeWhile isSpace ++
                             (c5 ++ s9)))))))) := by rw [e9]
                      _ = c1 ++ (s1.takeWhile isSpace ++ (c2 ++
                          (s3.takeWhile (fun c => c != '"') ++
                           ("\"".data ++ (s5.takeWhile (fun c => c != '>') ++
                            (">".data ++ (s7.takeWhile isSpace ++
                             (c5 ++ (s9.takeWhile isSpace ++
                              s9.dropWhile isSpace))))))))) := by
                          rw [List.takeWhile_append_dropWhile]
                      _ = c1 ++ (s1.takeWhile isSpace ++ (c2 ++
                          (s3.takeWhile (fun c => c != '"') ++
                           ("\"".data ++ (s5.takeWhile (fun c => c != '>') ++
                            (">".data ++ (s7.takeWhile isSpace ++
                             (c5 ++ (s9.takeWhile isSpace ++
                              (raw2 ++ cl ++ rest2)))))))))) := by rw [e11]
                      _ = (c1 ++ s1.takeWhile isSpace ++ c2 ++
                          s3.takeWhile (fun c => c != '"') ++ "\"".data ++
                          s5.takeWhile (fun c => c != '>') ++ ">".data ++
                          s7.takeWhile isSpace ++ c5 ++
                          s9.takeWhile isSpace ++ raw2 ++ cl) ++ rest2 := by
                          simp [List.append_assoc]
                  · refine ⟨c1 ++ s1.takeWhile isSpace ++ c2 ++
                      s3.takeWhile (fun c => c != '"') ++ "\"".data ++
                      s5.takeWhile (fun c => c != '>') ++ ">".data ++
                      s7.takeWhile isSpace, c5, s9.takeWhile isSpace, w4,
                      c6, t2, ?_, hci5, hci6,
                      fun c hc => List.mem_takeWhile_imp hc, hws4⟩
                    rw [← hfull, ← hraw, hcl]
                    simp [List.append_assoc]

theorem matchSimple_spec {s tagTxt raw rest : List Char}
    (h : matchSimple s = some (tagTxt, raw, rest)) :
    (∃ full, s = full ++ rest) ∧
    (ciEq tagTxt "DisplayName".data = true ∨
     ciEq tagTxt "Description".data = true ∨
     ciEq tagTxt "Tooltip".data = true) := by
  unfold matchSimple at h
  cases h1 : dropLit "<".data s with
  | none => rw [h1] at h; simp at h
  | some s1 =>
    rw [h1] at h
    dsimp only at h
    cases h2 : altCI ["DisplayName".data, "Description".data,
        "Tooltip".data] s1 with
    | none => rw [h2] at h; simp at h
    | some p2 =>
      rcases p2 with ⟨tagTxt2, s2⟩
      rw [h2] at h
      dsimp only at h
      cases h3 : dropLit ">".data s2 with
      | none => rw [h3] at h; simp at h
      | some s3 =>
        rw [h3] at h
        dsimp only at h
        cases h4 : lazyUntil (closeSimple tagTxt2) (s3.dropWhile isSpace) with
        | none => rw [h4] at h; simp at h
        | some p4 =>
          rcases p4 with ⟨raw2, cl, rest2⟩
          rw [h4] at h
          simp only [Option.some.injEq, Prod.mk.injEq] at h
          obtain ⟨htag, hraw, hrest⟩ := h
          have e1 : s = "<".data ++ s1 := dropLit_eq_some.mp h1
          obtain ⟨l, hl, hci, e2⟩ := altCI_spec h2
          have e3 : s2 = ">".data ++ s3 := dropLit_eq_some.mp h3
          obtain ⟨e4, -⟩ := @lazyUntil_spec (closeSimple tagTxt2)
            (fun _ => True)
            (fun r cl2 rest3 hh => ⟨closeSimple_spec hh, trivial⟩)
            _ _ _ _ h4
          constructor
          · refine ⟨"<".data ++ tagTxt2 ++ ">".data ++
              s3.takeWhile isSpace ++ raw2 ++ cl, ?_⟩
            rw [← hrest]
            calc s = "<".data ++ s1 := e1
              _ = "<".data ++ (tagTxt2 ++ s2) := by rw [e2]
              _ = "<".data ++ (tagTxt2 ++ (">".data ++ s3)) := by rw [e3]
              _ = "<".data ++ (tagTxt2 ++ (">".data ++
                  (s3.takeWhile isSpace ++ s3.dropWhile isSpace))) := by
                  rw [List.takeWhile_append_dropWhile]
              _ = "<".data ++ (tagTxt2 ++ (">".data ++
                  (s3.takeWhile isSpace ++ (raw2 ++ cl ++ rest2)))) := by
                  rw [e4]
              _ = ("<".data ++ tagTxt2 ++ ">".data ++
                  s3.takeWhile isSpace ++ raw2 ++ cl) ++ rest2 := by
                  simp [List.append_assoc]
          · rw [← htag]
            simp only [List.mem_cons, List.not_mem_nil, or_false] at hl
            rcases hl with rfl | rfl | rfl
            · exact Or.inl hci
            · exact Or.inr (Or.inl hci)
            · exact Or.inr (Or.inr hci)

theorem scanMatches_inv :
    ∀ (fuel : Nat) (s p content : List Char), content = p ++ s →
      ∀ f ∈ scanMatches fuel s, GoodFrag content f := by
  intro fuel
  induction fuel with
  | zero => intro s p content hc f hf; simp [scanMatches] at hf
  | succ fuel ih =>
    intro s p content hc f hf
    cases s with
    | nil => simp [scanMatches] at hf
    | cons c s' =>
      cases hmf : matchFull (c :: s') with
      | some trip =>
        rcases trip with ⟨full, raw, rest⟩
        simp only [scanMatches, hmf] at hf
        rcases List.mem_cons.mp hf with hfe | hf2
        · subst hfe
          obtain ⟨hsplit, u, c5, w3, w4, c6, t2, hfull, hci5, hci6,
            hws3, hws4⟩ := matchFull_spec hmf
          constructor
          · intro _
            refine ⟨full, rfl, ⟨p, rest, ?_⟩, u, c5, w3 ++ raw ++ w4, c6,
              t2, ?_, hci5, hci6, ?_⟩
            · rw [hc, hsplit]; simp [List.append_assoc]
            · rw [hfull]; simp [List.append_assoc]
            · exact stripChars_ws_wrap hws3 hws4
          · intro hne; exact absurd rfl hne
        · exact ih rest (p ++ full) content
            (by rw [hc, (matchFull_spec hmf).1]; simp [List.append_assoc])
            f hf2
      | none =>
        cases hms : matchSimple (c :: s') with
        | some trip =>
          rcases trip with ⟨tagTxt, raw, rest⟩
          simp only [scanMatches, hmf, hms] at hf
          obtain ⟨⟨full2, hsplit⟩, hdisj⟩ := matchSimple_spec hms
          rcases List.mem_cons.mp hf with hfe | hf2
          · subst hfe
            constructor
            · intro htag
              exfalso
              have htag2 : tagTxt = "value".data := htag
              rcases hdisj with hciX | hciX | hciX <;>
                · have hlen := ciEq_length hciX
                  rw [htag2] at hlen
                  exact absurd hlen (by decide)
            · intro _; rfl
          · exact ih rest (p ++ full2) content
              (by rw [hc, hsplit]; simp [List.append_assoc]) f hf2
        | none =>
          simp only [scanMatches, hmf, hms] at hf
          exact ih s' (p ++ [c]) content (by rw [hc]; simp) f hf

/-- C10: for every fragment produced by extraction — if its category is
`value`, its anchor is a substring of the input content containing the
fragment's `sourceText` wrapped in a value element (so anchor-scoped
replacement can always locate the text inside the anchor); for every
other category (DisplayName, Description, Tooltip in any letter case)
the anchor is absent.  `GoodFrag` spells this out. -/
theorem C10_anchor_shape (content : List Char) (f : Frag)
    (hf : f ∈ parse_translatable_content content) : GoodFrag content f :=
  scanMatches_inv content.length content [] content (by simp) f
    ((List.mem_filter.mp hf).1)

/-- C10, witness: the Value fragment extracted from the spec's example
block satisfies the anchor-shape invariant. -/
theorem C10_anchor_shape_witness :
    GoodFrag "<data name=\"x\"><value>Stone</value></data>".data
      ⟨"value".data, "Stone".data,
        some "<data name=\"x\"><value>Stone</value></data>".data⟩ :=
  C10_anchor_shape "<data name=\"x\"><value>Stone</value></data>".data
    ⟨"value".data, "Stone".data,
      some "<data name=\"x\"><value>Stone</value></data>".data⟩
    (by decide)

end SETS
